import Mathlib

/-!
Formal model of `BlockCompletionTransformer`
(`lms/djangoapps/course_api/blocks/transformers/block_completion.py`).

The transformer works over a block structure: a rooted DAG of blocks,
each identified by an opaque usage key.  We model keys as natural
numbers; `str()` on a usage key is a canonical injective serialization,
so it is modelled as the identity on the abstract key space.  Completion
fractions (Python floats holding values such as `0.0` and `1.0`) are
modelled as rationals.  The three per-block output fields written by the
transformer (`completion`, `complete`, `resume_block`) are modelled as
total functions from keys, with the "absent" default (`None` for
`completion`, falsy for the two flags) as the initial value, matching
`get_xblock_field` / `get_transformer_block_field` returning `None`
for a field that was never written.

Fallible code is modelled by returning the mutated state together with
an `Option PyError`: Python mutates the structure in place, so all
writes performed before an exception is raised survive in the state.
-/

/-- Opaque block usage key (`opaque_keys.edx.locator.BlockUsageLocator`). -/
abbrev Key := Nat

/-- Python `str()` of a usage key: a canonical, injective serialization of
the locator.  On the abstract key space it is the identity. -/
def strOfKey (k : Key) : Key := k

/-- `xblock.completable.XBlockCompletionMode` constants.  `completable`
is the default mode; any other string a block could carry behaves like
`completable` for this transformer, so a single constructor suffices. -/
inductive CompletionMode
  | aggregator
  | excluded
  | completable
  deriving DecidableEq

/-- The parts of a `BlockStructureBlockData` instance this transformer
reads: the two traversal orders, the children relation, and the
collected `completion_mode` xblock field (`none` when the field is
missing or unset on a block). -/
structure BlockStructure where
  topoOrder : List Key
  postOrder : List Key
  children : Key → List Key
  completionMode : Key → Option CompletionMode

/-- The three output fields of the transformer, as block-indexed maps.
`completion` holds `none` both for a never-written field and for an
explicitly written `None`, matching the Python getters. -/
structure TState where
  completion : Key → Option ℚ
  complete : Key → Bool
  resume : Key → Bool

/-- A structure in which no output field has ever been written. -/
def initState : TState :=
  { completion := fun _ => none
    complete := fun _ => false
    resume := fun _ => false }

/-- Point update of a block-indexed field map
(`override_xblock_field` / `set_transformer_block_field`). -/
def overrideField {α : Type} (f : Key → α) (k : Key) (v : α) : Key → α :=
  fun x => if x = k then v else f x

/-- One row of the `BlockCompletion` queryset for the current user and
course: the block key (already mapped into the course, the mapping being
the identity on the abstract key space), the completion fraction, and
the value of the `modified` column that `.latest()` orders by. -/
structure CompletionRecord where
  block_key : Key
  fraction : ℚ
  modified : Nat
  deriving DecidableEq

/-- `completions_dict`: Python dict built by comprehension over the
queryset rows; a later row with the same key overwrites an earlier one. -/
def completions_dict (records : List CompletionRecord) (k : Key) : Option ℚ :=
  (records.reverse.find? (fun r => r.block_key == k)).map (fun r => r.fraction)

/-- `complete_blocks.latest()[0]`: among the raw rows whose fraction is
`1.0`, the block key of the row with the greatest `modified` value
(`None` when no such row exists; ties resolved to the earliest such
row, the database order among ties being unspecified). -/
def latest_complete_key (records : List CompletionRecord) : Option Key :=
  match records.filter (fun r => decide (r.fraction = 1)) with
  | [] => none
  | r :: rest =>
      some ((rest.foldl (fun best q => if best.modified < q.modified then q else best) r).block_key)

/-- `complete_keys`: the set of keys whose entry in `completions_dict`
is `1.0`, as a membership test. -/
def complete_keys_of (records : List CompletionRecord) : Key → Bool :=
  fun k => decide (completions_dict records k = some 1)

/-- `_is_block_excluded`: the collected `completion_mode` equals
`EXCLUDED`; a missing field (`None`) compares unequal. -/
def is_block_excluded (bs : BlockStructure) (k : Key) : Bool :=
  decide (bs.completionMode k = some CompletionMode.excluded)

/-- `_is_block_an_aggregator_or_excluded`: the collected
`completion_mode` is `AGGREGATOR` or `EXCLUDED`; a missing field
(`None`) is in neither. -/
def is_block_an_aggregator_or_excluded (bs : BlockStructure) (k : Key) : Bool :=
  decide (bs.completionMode k = some CompletionMode.aggregator) ||
    decide (bs.completionMode k = some CompletionMode.excluded)

/-- Exceptions the modelled code can raise. -/
inductive PyError
  | nameError
  deriving DecidableEq

/-- Embeds `_complete_exam_keys`.  In the source this method is declared
`@staticmethod` with parameters `(block_key, block_structure)`, yet its
body reads `self.COMPLETE`.  When it is invoked, Python evaluates the
argument `self.COMPLETE` of the first `override_xblock_field` call and
raises `NameError` (the name `self` is unbound in a staticmethod) before
any field is written.  The intended body — force `complete = True` on the
block and, via a worklist over `get_children`, on every descendant — is
therefore unreachable; the call leaves the structure unchanged and
propagates the error. -/
def complete_exam_keys (_block_key : Key) (_bs : BlockStructure) (s : TState) :
    TState × Option PyError :=
  (s, some PyError.nameError)

/-- `mark_complete`: the per-block body of the reverse-topological pass.
In order: a block whose key is in `complete_course_blocks` is marked
complete (and `resume_block` when its `str()` equals that of the latest
complete key); otherwise an `AGGREGATOR` block is marked complete when
every non-excluded child is complete, and marked `resume_block` when any
child is; finally, a block whose `str()` is in `completed_exam_keys`
triggers `_complete_exam_keys`. -/
def mark_complete (complete_course_blocks : Key → Bool)
    (latest_complete_block_key : Key) (block_key : Key) (bs : BlockStructure)
    (completed_exam_keys : List Key) (s : TState) : TState × Option PyError :=
  let s1 : TState :=
    if complete_course_blocks block_key then
      let s2 : TState := { s with complete := overrideField s.complete block_key true }
      if strOfKey block_key = strOfKey latest_complete_block_key then
        { s2 with resume := overrideField s2.resume block_key true }
      else s2
    else if bs.completionMode block_key = some CompletionMode.aggregator then
      let cs := bs.children block_key
      let all_children_complete :=
        (cs.filter (fun c => !is_block_excluded bs c)).all (fun c => s.complete c)
      let s2 : TState :=
        if all_children_complete then
          { s with complete := overrideField s.complete block_key true }
        else s
      if cs.any (fun c => s2.resume c) then
        { s2 with resume := overrideField s2.resume block_key true }
      else s2
    else s
  if completed_exam_keys.contains (strOfKey block_key) then
    complete_exam_keys block_key bs s1
  else (s1, none)

/-- The value the first pass stores in the `completion` field of one
block: `None` for aggregator or excluded blocks, the recorded fraction
when the key is in `completions_dict`, and `0.0` otherwise. -/
def completion_value (bs : BlockStructure) (records : List CompletionRecord) (k : Key) :
    Option ℚ :=
  if is_block_an_aggregator_or_excluded bs k then none
  else if (completions_dict records k).isSome then completions_dict records k
  else some 0

/-- The `for block_key in block_structure.topological_traversal()` loop:
store `completion_value` for every traversed block. -/
def assign_completion_values (bs : BlockStructure) (records : List CompletionRecord) :
    List Key → TState → TState
  | [], s => s
  | k :: rest, s =>
      assign_completion_values bs records rest
        { s with completion := overrideField s.completion k (completion_value bs records k) }

/-- The `for block_key in block_structure.post_order_traversal()` loop:
run `mark_complete` on each block in order; an exception raised by a
call aborts the remaining iterations, the writes performed so far
surviving in the structure. -/
def mark_complete_loop (ck : Key → Bool) (latest : Key) (bs : BlockStructure)
    (exam : List Key) : List Key → TState → TState × Option PyError
  | [], s => (s, none)
  | k :: rest, s =>
      match mark_complete ck latest k bs exam s with
      | (s1, none) => mark_complete_loop ck latest bs exam rest s1
      | (s1, some e) => (s1, some e)

/-- `transform`: assign `completion` over the topological traversal,
then, only when some raw row records a `1.0` completion, run the
reverse-topological `mark_complete` pass.  `completed_exam_keys` models
the set of `content_id` strings of active exams whose current attempt is
in a completed status; in the source it is fetched inside the
`if latest_complete_key` branch, so it is consulted only there. -/
def transform (bs : BlockStructure) (records : List CompletionRecord)
    (completed_exam_keys : List Key) (s : TState) : TState × Option PyError :=
  let s1 := assign_completion_values bs records bs.topoOrder s
  match latest_complete_key records with
  | none => (s1, none)
  | some latest =>
      mark_complete_loop (complete_keys_of records) latest bs completed_exam_keys
        bs.postOrder s1

/-- Validity of a reverse-topological order relative to the children
relation: scanning the list left to right, every child of each element
has already been seen (`seen` accumulates the scanned prefix). -/
def postorder_ready (bs : BlockStructure) : List Key → List Key → Bool
  | _, [] => true
  | seen, k :: rest =>
      (bs.children k).all (fun c => seen.contains c) && postorder_ready bs (k :: seen) rest

/-- The completeness vote of an aggregator block over a field map: every
non-excluded child satisfies it. -/
def children_vote (bs : BlockStructure) (f : Key → Bool) (k : Key) : Bool :=
  ((bs.children k).filter (fun c => !is_block_excluded bs c)).all f

/-- The resume vote of an aggregator block over a field map: some child
satisfies it (excluded children included). -/
def child_resume (bs : BlockStructure) (f : Key → Bool) (k : Key) : Bool :=
  (bs.children k).any f

/-- The value `mark_complete` leaves in the `complete` field of a block
that the pass reaches with both flags still unset, expressed against a
field map `f` supplying the children values. -/
def complete_rule (bs : BlockStructure) (ck : Key → Bool) (f : Key → Bool) (k : Key) : Bool :=
  if ck k then true
  else if bs.completionMode k = some CompletionMode.aggregator then children_vote bs f k
  else false

/-- The value `mark_complete` leaves in the `resume_block` field of a
block that the pass reaches with both flags still unset. -/
def resume_rule (bs : BlockStructure) (ck : Key → Bool) (latest : Key)
    (f : Key → Bool) (k : Key) : Bool :=
  if ck k then (if strOfKey k = strOfKey latest then true else false)
  else if bs.completionMode k = some CompletionMode.aggregator then child_resume bs f k
  else false

/-! ## Basic lemmas about states, field updates and votes -/

theorem TState.ext_of (s t : TState)
    (h1 : ∀ k, s.completion k = t.completion k)
    (h2 : ∀ k, s.complete k = t.complete k)
    (h3 : ∀ k, s.resume k = t.resume k) : s = t := by
  cases s
  cases t
  simp only [TState.mk.injEq]
  exact ⟨funext h1, funext h2, funext h3⟩

theorem overrideField_self {α : Type} (f : Key → α) (k : Key) (v : α) :
    overrideField f k v k = v := by
  simp [overrideField]

theorem overrideField_ne {α : Type} (f : Key → α) (k x : Key) (v : α) (h : x ≠ k) :
    overrideField f k v x = f x := by
  simp [overrideField, h]

theorem all_agree {l : List Key} {f g : Key → Bool} (h : ∀ x ∈ l, f x = g x) :
    l.all f = l.all g := by
  induction l with
  | nil => rfl
  | cons a t ih =>
      simp only [List.all_cons]
      rw [h a (List.mem_cons_self a t), ih (fun x hx => h x (List.mem_cons_of_mem a hx))]

theorem any_agree {l : List Key} {f g : Key → Bool} (h : ∀ x ∈ l, f x = g x) :
    l.any f = l.any g := by
  induction l with
  | nil => rfl
  | cons a t ih =>
      simp only [List.any_cons]
      rw [h a (List.mem_cons_self a t), ih (fun x hx => h x (List.mem_cons_of_mem a hx))]

theorem children_vote_agree (bs : BlockStructure) {f g : Key → Bool} (k : Key)
    (h : ∀ c ∈ bs.children k, f c = g c) :
    children_vote bs f k = children_vote bs g k := by
  unfold children_vote
  exact all_agree (fun x hx => h x (List.mem_of_mem_filter hx))

theorem child_resume_agree (bs : BlockStructure) {f g : Key → Bool} (k : Key)
    (h : ∀ c ∈ bs.children k, f c = g c) :
    child_resume bs f k = child_resume bs g k := by
  unfold child_resume
  exact any_agree h

/-! ## Lemmas about a single `mark_complete` call -/

theorem mc_snd (ck : Key → Bool) (latest k : Key) (bs : BlockStructure)
    (exam : List Key) (s : TState) :
    (mark_complete ck latest k bs exam s).snd =
      if exam.contains (strOfKey k) then some PyError.nameError else none := by
  simp only [mark_complete, complete_exam_keys]
  split_ifs <;> rfl

theorem mc_completion (ck : Key → Bool) (latest k : Key) (bs : BlockStructure)
    (exam : List Key) (s : TState) :
    (mark_complete ck latest k bs exam s).fst.completion = s.completion := by
  simp only [mark_complete, complete_exam_keys]
  split_ifs <;> rfl

theorem mc_other (ck : Key → Bool) (latest k : Key) (bs : BlockStructure)
    (exam : List Key) (s : TState) (x : Key) (hx : x ≠ k) :
    (mark_complete ck latest k bs exam s).fst.complete x = s.complete x ∧
    (mark_complete ck latest k bs exam s).fst.resume x = s.resume x := by
  simp only [mark_complete, complete_exam_keys]
  split_ifs <;> simp [overrideField, hx]

theorem mc_self_complete (ck : Key → Bool) (latest k : Key) (bs : BlockStructure)
    (exam : List Key) (s : TState) :
    (mark_complete ck latest k bs exam s).fst.complete k =
      (if ck k then true
       else if bs.completionMode k = some CompletionMode.aggregator then
         (if children_vote bs s.complete k then true else s.complete k)
       else s.complete k) := by
  simp only [mark_complete, complete_exam_keys, children_vote]
  split_ifs <;> simp_all [overrideField]

theorem mc_self_resume (ck : Key → Bool) (latest k : Key) (bs : BlockStructure)
    (exam : List Key) (s : TState) :
    (mark_complete ck latest k bs exam s).fst.resume k =
      (if ck k then (if strOfKey k = strOfKey latest then true else s.resume k)
       else if bs.completionMode k = some CompletionMode.aggregator then
         (if child_resume bs s.resume k then true else s.resume k)
       else s.resume k) := by
  simp only [mark_complete, complete_exam_keys, child_resume]
  split_ifs <;> simp_all [overrideField]

/-! ## Lemmas about the two traversal loops -/

theorem loop_cons (ck : Key → Bool) (latest : Key) (bs : BlockStructure)
    (exam : List Key) (k : Key) (rest : List Key) (s : TState) :
    mark_complete_loop ck latest bs exam (k :: rest) s =
      match mark_complete ck latest k bs exam s with
      | (s1, none) => mark_complete_loop ck latest bs exam rest s1
      | (s1, some e) => (s1, some e) := rfl

theorem loop_cons_ok (ck : Key → Bool) (latest : Key) (bs : BlockStructure)
    (exam : List Key) (k : Key) (rest : List Key) (s s1 : TState)
    (h : mark_complete ck latest k bs exam s = (s1, none)) :
    mark_complete_loop ck latest bs exam (k :: rest) s =
      mark_complete_loop ck latest bs exam rest s1 := by
  rw [loop_cons, h]

theorem loop_cons_err (ck : Key → Bool) (latest : Key) (bs : BlockStructure)
    (exam : List Key) (k : Key) (rest : List Key) (s s1 : TState) (e : PyError)
    (h : mark_complete ck latest k bs exam s = (s1, some e)) :
    mark_complete_loop ck latest bs exam (k :: rest) s = (s1, some e) := by
  rw [loop_cons, h]

theorem loop_frame (ck : Key → Bool) (latest : Key) (bs : BlockStructure)
    (exam : List Key) :
    ∀ (order : List Key) (s : TState),
    (mark_complete_loop ck latest bs exam order s).fst.completion = s.completion ∧
    ∀ x, x ∉ order →
      (mark_complete_loop ck latest bs exam order s).fst.complete x = s.complete x ∧
      (mark_complete_loop ck latest bs exam order s).fst.resume x = s.resume x := by
  intro order
  induction order with
  | nil => exact fun s => ⟨rfl, fun x _ => ⟨rfl, rfl⟩⟩
  | cons k rest ih =>
      intro s
      rcases hmk : mark_complete ck latest k bs exam s with ⟨s1, e⟩
      have hcompl : s1.completion = s.completion := by
        have h := mc_completion ck latest k bs exam s
        rw [hmk] at h
        exact h
      cases e with
      | none =>
          rw [loop_cons_ok ck latest bs exam k rest s s1 hmk]
          obtain ⟨ihc, ihf⟩ := ih s1
          refine ⟨by rw [ihc, hcompl], fun x hx => ?_⟩
          have hxk : x ≠ k := fun hcontra => hx (hcontra ▸ List.mem_cons_self k rest)
          have hxr : x ∉ rest := fun hcontra => hx (List.mem_cons_of_mem k hcontra)
          have hother := mc_other ck latest k bs exam s x hxk
          rw [hmk] at hother
          obtain ⟨ih1, ih2⟩ := ihf x hxr
          exact ⟨by rw [ih1, hother.1], by rw [ih2, hother.2]⟩
      | some e =>
          rw [loop_cons_err ck latest bs exam k rest s s1 e hmk]
          refine ⟨hcompl, fun x hx => ?_⟩
          have hxk : x ≠ k := fun hcontra => hx (hcontra ▸ List.mem_cons_self k rest)
          have hother := mc_other ck latest k bs exam s x hxk
          rw [hmk] at hother
          exact hother

theorem assign_cons (bs : BlockStructure) (records : List CompletionRecord)
    (k : Key) (rest : List Key) (s : TState) :
    assign_completion_values bs records (k :: rest) s =
      assign_completion_values bs records rest
        { s with completion := overrideField s.completion k (completion_value bs records k) } :=
  rfl

theorem assign_frame (bs : BlockStructure) (records : List CompletionRecord) :
    ∀ (order : List Key) (s : TState),
    (assign_completion_values bs records order s).complete = s.complete ∧
    (assign_completion_values bs records order s).resume = s.resume ∧
    ∀ x, x ∉ order →
      (assign_completion_values bs records order s).completion x = s.completion x := by
  intro order
  induction order with
  | nil => exact fun s => ⟨rfl, rfl, fun x _ => rfl⟩
  | cons k rest ih =>
      intro s
      rw [assign_cons]
      obtain ⟨ih1, ih2, ih3⟩ :=
        ih { s with completion := overrideField s.completion k (completion_value bs records k) }
      refine ⟨ih1, ih2, fun x hx => ?_⟩
      have hxk : x ≠ k := fun hcontra => hx (hcontra ▸ List.mem_cons_self k rest)
      have hxr : x ∉ rest := fun hcontra => hx (List.mem_cons_of_mem k hcontra)
      rw [ih3 x hxr]
      exact overrideField_ne s.completion k x _ hxk

theorem assign_mem (bs : BlockStructure) (records : List CompletionRecord) :
    ∀ (order : List Key) (s : TState) (k : Key), k ∈ order →
    (assign_completion_values bs records order s).completion k =
      completion_value bs records k := by
  intro order
  induction order with
  | nil => exact fun s k hk => absurd hk (List.not_mem_nil k)
  | cons a rest ih =>
      intro s k hk
      rw [assign_cons]
      by_cases hkr : k ∈ rest
      · exact ih _ k hkr
      · have hka : k = a := by
          rcases List.mem_cons.mp hk with h | h
          · exact h
          · exact absurd h hkr
        subst hka
        rw [(assign_frame bs records rest _).2.2 k hkr]
        exact overrideField_self s.completion k _

theorem transform_completion_eq (bs : BlockStructure) (records : List CompletionRecord)
    (exam : List Key) (s : TState) (k : Key) (hk : k ∈ bs.topoOrder) :
    (transform bs records exam s).fst.completion k = completion_value bs records k := by
  unfold transform
  cases hl : latest_complete_key records with
  | none =>
      simp only [hl]
      exact assign_mem bs records bs.topoOrder s k hk
  | some latest =>
      simp only [hl]
      rw [congrFun (loop_frame (complete_keys_of records) latest bs exam bs.postOrder
        (assign_completion_values bs records bs.topoOrder s)).1 k]
      exact assign_mem bs records bs.topoOrder s k hk

/-! ## Characterization of the reverse-topological pass -/

theorem if_bool_id (b : Bool) : (if b then true else false) = b := by
  cases b <;> rfl

theorem contains_mem {l : List Key} {a : Key} (h : l.contains a = true) : a ∈ l := by
  simpa using h

theorem postorder_ready_cons (bs : BlockStructure) (seen : List Key) (k : Key)
    (rest : List Key) (h : postorder_ready bs seen (k :: rest) = true) :
    ((bs.children k).all (fun c => seen.contains c) = true) ∧
    postorder_ready bs (k :: seen) rest = true := by
  simp only [postorder_ready, Bool.and_eq_true] at h
  exact h

theorem mark_loop_spec (ck : Key → Bool) (latest : Key) (bs : BlockStructure)
    (exam : List Key) :
    ∀ (order seen : List Key) (s : TState),
    postorder_ready bs seen order = true →
    order.Nodup →
    (∀ x ∈ seen, x ∉ order) →
    (∀ x ∈ order, exam.contains (strOfKey x) = false) →
    (∀ x ∈ order, s.complete x = false ∧ s.resume x = false) →
    (mark_complete_loop ck latest bs exam order s).snd = none ∧
    ∀ x ∈ order,
      (mark_complete_loop ck latest bs exam order s).fst.complete x =
        complete_rule bs ck (mark_complete_loop ck latest bs exam order s).fst.complete x ∧
      (mark_complete_loop ck latest bs exam order s).fst.resume x =
        resume_rule bs ck latest (mark_complete_loop ck latest bs exam order s).fst.resume x := by
  intro order
  induction order with
  | nil =>
      intro seen s _ _ _ _ _
      exact ⟨rfl, fun x hx => absurd hx (List.not_mem_nil x)⟩
  | cons k rest ih =>
      intro seen s hready hnd hdisj hex huns
      obtain ⟨hchild, hready2⟩ := postorder_ready_cons bs seen k rest hready
      obtain ⟨hknr, hndr⟩ := List.nodup_cons.mp hnd
      have hexk : exam.contains (strOfKey k) = false := hex k (List.mem_cons_self k rest)
      rcases hmk : mark_complete ck latest k bs exam s with ⟨s1, e⟩
      have he : e = none := by
        have h := mc_snd ck latest k bs exam s
        rw [hmk, hexk] at h
        simpa using h
      subst he
      rw [loop_cons_ok ck latest bs exam k rest s s1 hmk]
      have hs1other : ∀ x, x ≠ k → s1.complete x = s.complete x ∧ s1.resume x = s.resume x := by
        intro x hx
        have h := mc_other ck latest k bs exam s x hx
        rw [hmk] at h
        exact h
      have hs1kc : s1.complete k =
          (if ck k then true
           else if bs.completionMode k = some CompletionMode.aggregator then
             (if children_vote bs s.complete k then true else s.complete k)
           else s.complete k) := by
        have h := mc_self_complete ck latest k bs exam s
        rw [hmk] at h
        exact h
      have hs1kr : s1.resume k =
          (if ck k then (if strOfKey k = strOfKey latest then true else s.resume k)
           else if bs.completionMode k = some CompletionMode.aggregator then
             (if child_resume bs s.resume k then true else s.resume k)
           else s.resume k) := by
        have h := mc_self_resume ck latest k bs exam s
        rw [hmk] at h
        exact h
      have hdisj2 : ∀ x ∈ k :: seen, x ∉ rest := by
        intro x hx
        rcases List.mem_cons.mp hx with h | h
        · exact h ▸ hknr
        · exact fun hc => hdisj x h (List.mem_cons_of_mem k hc)
      have hex2 : ∀ x ∈ rest, exam.contains (strOfKey x) = false :=
        fun x hx => hex x (List.mem_cons_of_mem k hx)
      have huns2 : ∀ x ∈ rest, s1.complete x = false ∧ s1.resume x = false := by
        intro x hx
        have hxk : x ≠ k := fun hcontra => hknr (hcontra ▸ hx)
        obtain ⟨h1, h2⟩ := hs1other x hxk
        obtain ⟨h3, h4⟩ := huns x (List.mem_cons_of_mem k hx)
        exact ⟨h1.trans h3, h2.trans h4⟩
      obtain ⟨ihsnd, ihform⟩ := ih (k :: seen) s1 hready2 hndr hdisj2 hex2 huns2
      refine ⟨ihsnd, fun x hx => ?_⟩
      rcases List.mem_cons.mp hx with hxk | hxr
      · subst hxk
        obtain ⟨hfc, hfr⟩ := (loop_frame ck latest bs exam rest s1).2 x hknr
        have hagree : ∀ c ∈ bs.children x,
            (mark_complete_loop ck latest bs exam rest s1).fst.complete c = s.complete c ∧
            (mark_complete_loop ck latest bs exam rest s1).fst.resume c = s.resume c := by
          intro c hc
          have hcseen : c ∈ seen := contains_mem (List.all_eq_true.mp hchild c hc)
          have hcnkr : c ∉ x :: rest := hdisj c hcseen
          have hck : c ≠ x := fun hcontra => hcnkr (hcontra ▸ List.mem_cons_self x rest)
          have hcr : c ∉ rest := fun hcontra => hcnkr (List.mem_cons_of_mem x hcontra)
          obtain ⟨h1, h2⟩ := (loop_frame ck latest bs exam rest s1).2 c hcr
          obtain ⟨h3, h4⟩ := hs1other c hck
          exact ⟨h1.trans h3, h2.trans h4⟩
        obtain ⟨husc, husr⟩ := huns x (List.mem_cons_self x rest)
        have hvote : children_vote bs
            (mark_complete_loop ck latest bs exam rest s1).fst.complete x =
            children_vote bs s.complete x :=
          children_vote_agree bs x (fun c hc => (hagree c hc).1)
        have hany : child_resume bs
            (mark_complete_loop ck latest bs exam rest s1).fst.resume x =
            child_resume bs s.resume x :=
          child_resume_agree bs x (fun c hc => (hagree c hc).2)
        constructor
        · rw [hfc, hs1kc, husc, complete_rule, hvote]
          split_ifs with h1 h2 h3
          · rfl
          · exact h3.symm
          · exact (Bool.eq_false_iff.mpr h3).symm
          · rfl
        · rw [hfr, hs1kr, husr, resume_rule, hany]
          split_ifs with h1 h2 h3 h4
          · rfl
          · rfl
          · exact h4.symm
          · exact (Bool.eq_false_iff.mpr h4).symm
          · rfl
      · exact ihform x hxr

/-! ## Fixpoint and monotonicity lemmas -/

theorem mc_fixpoint (ck : Key → Bool) (latest : Key) (bs : BlockStructure)
    (exam : List Key) (k : Key) (s : TState)
    (hexk : exam.contains (strOfKey k) = false)
    (hc : s.complete k = complete_rule bs ck s.complete k)
    (hr : s.resume k = resume_rule bs ck latest s.resume k) :
    mark_complete ck latest k bs exam s = (s, none) := by
  have hfst : (mark_complete ck latest k bs exam s).fst = s := by
    apply TState.ext_of
    · intro x
      rw [mc_completion]
    · intro x
      by_cases hx : x = k
      · subst hx
        rw [mc_self_complete]
        rw [complete_rule] at hc
        by_cases h1 : ck x = true
        · rw [if_pos h1]
          rw [if_pos h1] at hc
          exact hc.symm
        · rw [if_neg h1]
          rw [if_neg h1] at hc
          by_cases h2 : bs.completionMode x = some CompletionMode.aggregator
          · rw [if_pos h2]
            rw [if_pos h2] at hc
            cases h3 : children_vote bs s.complete x with
            | true =>
                rw [if_pos rfl]
                rw [hc, h3]
            | false =>
                rw [if_neg Bool.false_ne_true]
          · rw [if_neg h2]
      · exact (mc_other ck latest k bs exam s x hx).1
    · intro x
      by_cases hx : x = k
      · subst hx
        rw [mc_self_resume]
        rw [resume_rule] at hr
        by_cases h1 : ck x = true
        · rw [if_pos h1]
          rw [if_pos h1] at hr
          by_cases h2 : strOfKey x = strOfKey latest
          · rw [if_pos h2]
            rw [if_pos h2] at hr
            exact hr.symm
          · rw [if_neg h2]
        · rw [if_neg h1]
          rw [if_neg h1] at hr
          by_cases h2 : bs.completionMode x = some CompletionMode.aggregator
          · rw [if_pos h2]
            rw [if_pos h2] at hr
            cases h3 : child_resume bs s.resume x with
            | true =>
                rw [if_pos rfl]
                rw [hr, h3]
            | false =>
                rw [if_neg Bool.false_ne_true]
          · rw [if_neg h2]
      · exact (mc_other ck latest k bs exam s x hx).2
  have hsnd : (mark_complete ck latest k bs exam s).snd = none := by
    rw [mc_snd, hexk]
    rfl
  exact Prod.ext_iff.mpr ⟨hfst, hsnd⟩

theorem mark_loop_fixpoint (ck : Key → Bool) (latest : Key) (bs : BlockStructure)
    (exam : List Key) :
    ∀ (order : List Key) (s : TState),
    (∀ x ∈ order, exam.contains (strOfKey x) = false) →
    (∀ x ∈ order,
      s.complete x = complete_rule bs ck s.complete x ∧
      s.resume x = resume_rule bs ck latest s.resume x) →
    mark_complete_loop ck latest bs exam order s = (s, none) := by
  intro order
  induction order with
  | nil => exact fun s _ _ => rfl
  | cons k rest ih =>
      intro s hex hfix
      have hk := hfix k (List.mem_cons_self k rest)
      have hmk := mc_fixpoint ck latest bs exam k s
        (hex k (List.mem_cons_self k rest)) hk.1 hk.2
      rw [loop_cons_ok ck latest bs exam k rest s s hmk]
      exact ih s (fun x hx => hex x (List.mem_cons_of_mem k hx))
        (fun x hx => hfix x (List.mem_cons_of_mem k hx))

theorem mc_mono (ck : Key → Bool) (latest k : Key) (bs : BlockStructure)
    (exam : List Key) (s : TState) (x : Key) :
    (s.complete x = true → (mark_complete ck latest k bs exam s).fst.complete x = true) ∧
    (s.resume x = true → (mark_complete ck latest k bs exam s).fst.resume x = true) := by
  by_cases hx : x = k
  · subst hx
    constructor
    · intro h
      rw [mc_self_complete]
      split_ifs <;> simp [h]
    · intro h
      rw [mc_self_resume]
      split_ifs <;> simp [h]
  · have hother := mc_other ck latest k bs exam s x hx
    exact ⟨fun h => hother.1.trans h, fun h => hother.2.trans h⟩

theorem loop_mono (ck : Key → Bool) (latest : Key) (bs : BlockStructure)
    (exam : List Key) :
    ∀ (order : List Key) (s : TState) (x : Key),
    (s.complete x = true →
      (mark_complete_loop ck latest bs exam order s).fst.complete x = true) ∧
    (s.resume x = true →
      (mark_complete_loop ck latest bs exam order s).fst.resume x = true) := by
  intro order
  induction order with
  | nil => exact fun s x => ⟨id, id⟩
  | cons k rest ih =>
      intro s x
      rcases hmk : mark_complete ck latest k bs exam s with ⟨s1, e⟩
      have hmono := mc_mono ck latest k bs exam s x
      rw [hmk] at hmono
      cases e with
      | none =>
          rw [loop_cons_ok ck latest bs exam k rest s s1 hmk]
          exact ⟨fun h => (ih s1 x).1 (hmono.1 h), fun h => (ih s1 x).2 (hmono.2 h)⟩
      | some e =>
          rw [loop_cons_err ck latest bs exam k rest s s1 e hmk]
          exact hmono

/-! ## Unfolding equations and a vacuity lemma for `transform` -/

theorem transform_eq_none (bs : BlockStructure) (records : List CompletionRecord)
    (exam : List Key) (s : TState) (h : latest_complete_key records = none) :
    transform bs records exam s =
      (assign_completion_values bs records bs.topoOrder s, none) := by
  unfold transform
  rw [h]

theorem transform_eq_some (bs : BlockStructure) (records : List CompletionRecord)
    (exam : List Key) (s : TState) (latest : Key)
    (h : latest_complete_key records = some latest) :
    transform bs records exam s =
      mark_complete_loop (complete_keys_of records) latest bs exam bs.postOrder
        (assign_completion_values bs records bs.topoOrder s) := by
  unfold transform
  rw [h]

theorem latest_none_of_no_complete (records : List CompletionRecord)
    (h : ∀ r ∈ records, r.fraction ≠ 1) : latest_complete_key records = none := by
  unfold latest_complete_key
  have hf : records.filter (fun r => decide (r.fraction = 1)) = [] := by
    rw [List.filter_eq_nil_iff]
    intro r hr
    simp [h r hr]
  rw [hf]

/-! ## Characterization of a full transform call from a fresh structure -/

theorem transform_spec (bs : BlockStructure) (records : List CompletionRecord)
    (exam : List Key) (latest : Key)
    (hlat : latest_complete_key records = some latest)
    (hpost : postorder_ready bs [] bs.postOrder = true)
    (hnd : bs.postOrder.Nodup)
    (hex : ∀ x ∈ bs.postOrder, exam.contains (strOfKey x) = false) :
    (transform bs records exam initState).snd = none ∧
    (∀ x, x ∉ bs.postOrder →
      (transform bs records exam initState).fst.complete x = false ∧
      (transform bs records exam initState).fst.resume x = false) ∧
    ∀ x ∈ bs.postOrder,
      (transform bs records exam initState).fst.complete x =
        complete_rule bs (complete_keys_of records)
          (transform bs records exam initState).fst.complete x ∧
      (transform bs records exam initState).fst.resume x =
        resume_rule bs (complete_keys_of records) latest
          (transform bs records exam initState).fst.resume x := by
  rw [transform_eq_some bs records exam initState latest hlat]
  have hflags := assign_frame bs records bs.topoOrder initState
  have huns : ∀ x ∈ bs.postOrder,
      (assign_completion_values bs records bs.topoOrder initState).complete x = false ∧
      (assign_completion_values bs records bs.topoOrder initState).resume x = false := by
    intro x _
    exact ⟨congrFun hflags.1 x, congrFun hflags.2.1 x⟩
  have hdisj : ∀ x ∈ ([] : List Key), x ∉ bs.postOrder := by
    intro x hx
    exact absurd hx (List.not_mem_nil x)
  obtain ⟨hsnd, hform⟩ := mark_loop_spec (complete_keys_of records) latest bs exam
    bs.postOrder [] (assign_completion_values bs records bs.topoOrder initState)
    hpost hnd hdisj hex huns
  refine ⟨hsnd, fun x hx => ?_, hform⟩
  obtain ⟨h1, h2⟩ := (loop_frame (complete_keys_of records) latest bs exam
    bs.postOrder (assign_completion_values bs records bs.topoOrder initState)).2 x hx
  exact ⟨h1.trans (congrFun hflags.1 x), h2.trans (congrFun hflags.2.1 x)⟩

/-! ## Claim theorems -/

/-- C2: after a transform call, for every block of the tree (every block
of the topological traversal), the `completion` field is `None` for a
block classified AGGREGATOR or EXCLUDED; otherwise it equals the
fraction held in `completions_dict` for the key when one exists, and
`0.0` when none does.  Hence every non-aggregator, non-excluded block
carries a defined numeric value and no block is left unset; this holds
whatever the second pass later does, since that pass never writes the
`completion` field. -/
theorem C2_completion_assignment (bs : BlockStructure)
    (records : List CompletionRecord) (exam : List Key) (k : Key)
    (hk : k ∈ bs.topoOrder) :
    (transform bs records exam initState).fst.completion k =
      (if is_block_an_aggregator_or_excluded bs k then none
       else if (completions_dict records k).isSome then completions_dict records k
       else some 0) := by
  rw [transform_completion_eq bs records exam initState k hk]
  rfl

def bsW2 : BlockStructure :=
  { topoOrder := [0, 1, 2]
    postOrder := [1, 2, 0]
    children := fun k => if k = 0 then [1, 2] else []
    completionMode := fun k =>
      if k = 0 then some CompletionMode.aggregator
      else if k = 2 then some CompletionMode.excluded
      else none }

def recsW2 : List CompletionRecord := [⟨1, 1, 5⟩]

/-- C2 witness: evaluates the claim on a three-block tree with an
aggregator root, a recorded leaf and an excluded leaf. -/
theorem C2_witness :
    ((1 : Key) ∈ bsW2.topoOrder ∧
      (transform bsW2 recsW2 [] initState).fst.completion 1 =
        (if is_block_an_aggregator_or_excluded bsW2 1 then none
         else if (completions_dict recsW2 1).isSome then completions_dict recsW2 1
         else some 0)) ∧
    ((0 : Key) ∈ bsW2.topoOrder ∧
      (transform bsW2 recsW2 [] initState).fst.completion 0 =
        (if is_block_an_aggregator_or_excluded bsW2 0 then none
         else if (completions_dict recsW2 0).isSome then completions_dict recsW2 0
         else some 0)) :=
  ⟨⟨by decide, C2_completion_assignment bsW2 recsW2 [] 1 (by decide)⟩,
   ⟨by decide, C2_completion_assignment bsW2 recsW2 [] 0 (by decide)⟩⟩

/-- C5: when no raw completion record has fraction `1.0`, the whole
completeness-and-resume pass is skipped as a no-op — the call raises no
error, no block gets `complete` or `resume_block` set — and every
traversed block still receives its `completion` value from the
leaf-assignment pass. -/
theorem C5_no_complete_record_pass_skipped (bs : BlockStructure)
    (records : List CompletionRecord) (exam : List Key)
    (h : ∀ r ∈ records, r.fraction ≠ 1) :
    (transform bs records exam initState).snd = none ∧
    (∀ x, (transform bs records exam initState).fst.complete x = false ∧
          (transform bs records exam initState).fst.resume x = false) ∧
    ∀ k ∈ bs.topoOrder,
      (transform bs records exam initState).fst.completion k =
        completion_value bs records k := by
  have hl := latest_none_of_no_complete records h
  rw [transform_eq_none bs records exam initState hl]
  have hflags := assign_frame bs records bs.topoOrder initState
  refine ⟨rfl, fun x => ⟨?_, ?_⟩, fun k hk => ?_⟩
  · exact congrFun hflags.1 x
  · exact congrFun hflags.2.1 x
  · exact assign_mem bs records bs.topoOrder initState k hk

def recsW5 : List CompletionRecord := [⟨1, 0, 5⟩, ⟨0, 2, 6⟩]

/-- C5 witness: records exist (fractions `0.0` and `2.0`) but none with
fraction `1.0`; the pass is skipped on the C2 witness tree. -/
theorem C5_witness :
    (∀ r ∈ recsW5, r.fraction ≠ 1) ∧
    ((transform bsW2 recsW5 [] initState).snd = none ∧
     (∀ x, (transform bsW2 recsW5 [] initState).fst.complete x = false ∧
           (transform bsW2 recsW5 [] initState).fst.resume x = false) ∧
     ∀ k ∈ bsW2.topoOrder,
       (transform bsW2 recsW5 [] initState).fst.completion k =
         completion_value bsW2 recsW5 k) :=
  ⟨by decide, C5_no_complete_record_pass_skipped bsW2 recsW5 [] (by decide)⟩

/-- C7: in the reverse-topological pass, a block whose key is in the
complete-keys set is marked `complete = true` first, without consulting
its children and whatever its `completion_mode` (the block structure,
hence the classification and children of the block, is universally
quantified); and, provided its `resume_block` flag is still unset, the
flag ends `true` exactly when the canonical string of its key equals
that of the latest-complete key. -/
theorem C7_direct_record_priority (ck : Key → Bool) (latest k : Key)
    (bs : BlockStructure) (exam : List Key) (s : TState)
    (hck : ck k = true) (hres : s.resume k = false) :
    (mark_complete ck latest k bs exam s).fst.complete k = true ∧
    ((mark_complete ck latest k bs exam s).fst.resume k = true ↔
      strOfKey k = strOfKey latest) := by
  constructor
  · rw [mc_self_complete, if_pos hck]
  · rw [mc_self_resume, if_pos hck]
    by_cases h2 : strOfKey k = strOfKey latest
    · rw [if_pos h2]
      simp [h2]
    · rw [if_neg h2, hres]
      simp [h2]

def bsW7 : BlockStructure :=
  { topoOrder := [0, 1]
    postOrder := [1, 0]
    children := fun k => if k = 0 then [1] else []
    completionMode := fun k => if k = 0 then some CompletionMode.aggregator else none }

/-- C7 witness: an AGGREGATOR block with an incomplete child is still
marked complete because its own key is directly recorded; it also gets
the resume flag since it is the latest-complete key. -/
theorem C7_witness :
    (fun x => decide (x = 0)) (0 : Key) = true ∧
    initState.resume 0 = false ∧
    (mark_complete (fun x => decide (x = 0)) 0 0 bsW7 [] initState).fst.complete 0 = true ∧
    ((mark_complete (fun x => decide (x = 0)) 0 0 bsW7 [] initState).fst.resume 0 = true ↔
      strOfKey 0 = strOfKey 0) :=
  ⟨by decide, by decide,
   (C7_direct_record_priority (fun x => decide (x = 0)) 0 0 bsW7 [] initState
     (by decide) (by decide)).1,
   (C7_direct_record_priority (fun x => decide (x = 0)) 0 0 bsW7 [] initState
     (by decide) (by decide)).2⟩

/-- C8: a block whose `completion_mode` is missing or unset is treated
as the default non-aggregator, non-excluded class rather than an error:
`_is_block_excluded` returns false, the aggregator-or-excluded test
returns false, and the block receives a numeric `completion` value
(the recorded fraction or the `0.0` default). -/
theorem C8_missing_mode_default (bs : BlockStructure)
    (records : List CompletionRecord) (exam : List Key) (k : Key)
    (hm : bs.completionMode k = none) :
    is_block_excluded bs k = false ∧
    is_block_an_aggregator_or_excluded bs k = false ∧
    (k ∈ bs.topoOrder →
      (transform bs records exam initState).fst.completion k =
        (if (completions_dict records k).isSome then completions_dict records k
         else some 0)) := by
  have h1 : is_block_excluded bs k = false := by
    simp [is_block_excluded, hm]
  have h2 : is_block_an_aggregator_or_excluded bs k = false := by
    simp [is_block_an_aggregator_or_excluded, hm]
  refine ⟨h1, h2, fun hk => ?_⟩
  rw [transform_completion_eq bs records exam initState k hk]
  simp [completion_value, h2]

/-- C8 witness: block 1 of the C2 witness tree has no `completion_mode`
set. -/
theorem C8_witness :
    bsW2.completionMode 1 = none ∧
    is_block_excluded bsW2 1 = false ∧
    is_block_an_aggregator_or_excluded bsW2 1 = false ∧
    ((1 : Key) ∈ bsW2.topoOrder →
      (transform bsW2 recsW2 [] initState).fst.completion 1 =
        (if (completions_dict recsW2 1).isSome then completions_dict recsW2 1
         else some 0)) :=
  ⟨by decide,
   (C8_missing_mode_default bsW2 recsW2 [] 1 (by decide)).1,
   (C8_missing_mode_default bsW2 recsW2 [] 1 (by decide)).2.1,
   (C8_missing_mode_default bsW2 recsW2 [] 1 (by decide)).2.2⟩

def bsW3 : BlockStructure :=
  { topoOrder := [0, 1]
    postOrder := [1, 0]
    children := fun k => if k = 0 then [1] else []
    completionMode := fun _ => none }

def recsW3 : List CompletionRecord := [⟨1, 1, 5⟩]

/-- C3: the claim asserts that a block in the completed-exam set and all
its descendants end with `complete = true` after every transform call.
The code cannot do this: `mark_complete` reaches the exam check with the
exam block untouched and calls `_complete_exam_keys`, which raises
`NameError` (its body reads `self.COMPLETE` inside a `@staticmethod`)
before writing anything.  Concretely, on the tree `0 → 1` with a `1.0`
record for block `1` and completed-exam set `{0}`, the transform call
aborts with the error and block `0`, the exam root, ends with
`complete = false`. -/
theorem C3_exam_override_crashes :
    (transform bsW3 recsW3 [0] initState).snd = some PyError.nameError ∧
    (transform bsW3 recsW3 [0] initState).fst.complete 0 = false ∧
    (transform bsW3 recsW3 [0] initState).fst.complete 1 = true := by
  decide

def bsW6 : BlockStructure :=
  { topoOrder := [0, 1, 2]
    postOrder := [1, 2, 0]
    children := fun k => if k = 0 then [1, 2] else []
    completionMode := fun k => if k = 0 then some CompletionMode.aggregator else none }

def recsW6 : List CompletionRecord := [⟨2, 1, 5⟩]

/-- C6: the claim asserts the exam override runs after the bottom-up
pass (so it wins on conflict) and touches only the `complete` field.
In the code the override call sits inside `mark_complete`, interleaved
with the bottom-up pass, and raises `NameError`, aborting the rest of
the pass.  Concretely: aggregator root `0` with children `1` (in the
completed-exam set) and `2` (directly recorded `1.0`, the latest); the
pass visits `1` first, the override raises, and block `2` — which the
pass alone would have marked complete and the resume block — ends with
`complete = false` and `resume_block = false`, as does the root. -/
theorem C6_override_aborts_pass :
    (transform bsW6 recsW6 [1] initState).snd = some PyError.nameError ∧
    (transform bsW6 recsW6 [1] initState).fst.complete 2 = false ∧
    (transform bsW6 recsW6 [1] initState).fst.resume 2 = false ∧
    (transform bsW6 recsW6 [1] initState).fst.complete 0 = false ∧
    latest_complete_key recsW6 = some 2 := by
  decide

def bsX1 : BlockStructure :=
  { topoOrder := [0]
    postOrder := [0]
    children := fun _ => []
    completionMode := fun k => if k = 0 then some CompletionMode.aggregator else none }

/-- C1 counterexample: a childless AGGREGATOR block with no completion
records at all.  The claim requires `complete = true` (vacuously, zero
non-excluded children) after any transform call, but with no `1.0`
record the whole pass is skipped and the flag stays false. -/
theorem C1_counterexample :
    bsX1.completionMode 0 = some CompletionMode.aggregator ∧
    bsX1.children 0 = [] ∧
    (transform bsX1 [] [] initState).snd = none ∧
    (transform bsX1 [] [] initState).fst.complete 0 = false := by
  decide

/-- C1 (amended): provided the propagation pass runs at all (some raw
record has fraction `1.0`, i.e. a latest-complete key exists), no block
of the traversal is hit by the exam-override check (which would abort
the call), and the aggregator block is not itself directly recorded
`1.0`-complete (in which case the first rule fires without consulting
children), a traversed AGGREGATOR block ends with `complete = true` iff
every non-excluded child ends with `complete = true`, vacuously so with
zero non-excluded children. -/
theorem C1_aggregator_complete_iff (bs : BlockStructure)
    (records : List CompletionRecord) (exam : List Key) (latest k : Key)
    (hlat : latest_complete_key records = some latest)
    (hpost : postorder_ready bs [] bs.postOrder = true)
    (hnd : bs.postOrder.Nodup)
    (hex : ∀ x ∈ bs.postOrder, exam.contains (strOfKey x) = false)
    (hk : k ∈ bs.postOrder)
    (hmode : bs.completionMode k = some CompletionMode.aggregator)
    (hnotck : ¬completions_dict records k = some 1) :
    (transform bs records exam initState).fst.complete k = true ↔
      ∀ c ∈ bs.children k, is_block_excluded bs c = false →
        (transform bs records exam initState).fst.complete c = true := by
  obtain ⟨hsnd, hframe, hform⟩ := transform_spec bs records exam latest hlat hpost hnd hex
  obtain ⟨hc, _⟩ := hform k hk
  rw [complete_rule] at hc
  have hckf : complete_keys_of records k = false := by
    simp [complete_keys_of, hnotck]
  have hckn : ¬complete_keys_of records k = true := by
    simp [hckf]
  rw [if_neg hckn, if_pos hmode] at hc
  rw [hc]
  simp only [children_vote, List.all_eq_true]
  constructor
  · intro h c hcc hexcl
    exact h c (List.mem_filter.mpr ⟨hcc, by simp [hexcl]⟩)
  · intro h c hcf
    obtain ⟨hcc, hp⟩ := List.mem_filter.mp hcf
    exact h c hcc (by simpa using hp)

/-- C1 witness: the amended claim applied to an aggregator root over a
single recorded leaf. -/
theorem C1_witness :
    latest_complete_key recsW3 = some 1 ∧
    ((transform bsW7 recsW3 [] initState).fst.complete 0 = true ↔
      ∀ c ∈ bsW7.children 0, is_block_excluded bsW7 c = false →
        (transform bsW7 recsW3 [] initState).fst.complete c = true) :=
  ⟨by decide,
   C1_aggregator_complete_iff bsW7 recsW3 [] 1 0 (by decide) (by decide) (by decide)
     (by decide) (by decide) (by decide) (by decide)⟩

def bsX4 : BlockStructure :=
  { topoOrder := [0, 1]
    postOrder := [1, 0]
    children := fun k => if k = 0 then [1] else []
    completionMode := fun _ => none }

def recsX4 : List CompletionRecord := [⟨1, 1, 3⟩]

/-- C4 counterexample: block `0` is the unique strict ancestor of the
latest (and only) `1.0`-completed leaf `1`, there is no exam override,
yet `resume_block` is false on it: the upward propagation rule fires
only on AGGREGATOR blocks, and block `0` carries no `completion_mode`.
The claim requires `resume_block = true` on every strict ancestor. -/
theorem C4_counterexample :
    bsX4.children 0 = [1] ∧
    latest_complete_key recsX4 = some 1 ∧
    (transform bsX4 recsX4 [] initState).fst.resume 1 = true ∧
    (transform bsX4 recsX4 [] initState).fst.resume 0 = false := by
  decide

/-- C4 (amended): with at least one `1.0` record (so the pass runs) and
an empty completed-exam set, `resume_block` ends true exactly on the
blocks given by the propagation characterization: a traversed block
carries the flag iff either it is directly recorded `1.0`-complete and
its canonical string equals that of the latest-complete key, or it is an
AGGREGATOR, not itself directly recorded `1.0`-complete, with some child
carrying the flag.  Untraversed blocks never carry it.  The flagged set
is therefore the latest-completed block together with its ancestors
along unbroken chains of undirectly-recorded AGGREGATOR blocks — not,
as claimed, all strict ancestors. -/
theorem C4_resume_characterization (bs : BlockStructure)
    (records : List CompletionRecord) (latest : Key)
    (hlat : latest_complete_key records = some latest)
    (hpost : postorder_ready bs [] bs.postOrder = true)
    (hnd : bs.postOrder.Nodup) :
    ∀ k, (transform bs records [] initState).fst.resume k = true ↔
      (k ∈ bs.postOrder ∧
        ((completions_dict records k = some 1 ∧ strOfKey k = strOfKey latest) ∨
         (¬completions_dict records k = some 1 ∧
          bs.completionMode k = some CompletionMode.aggregator ∧
          ∃ c ∈ bs.children k,
            (transform bs records [] initState).fst.resume c = true))) := by
  have hex : ∀ x ∈ bs.postOrder, List.contains [] (strOfKey x) = false := by
    intro x _
    rfl
  obtain ⟨hsnd, hframe, hform⟩ := transform_spec bs records [] latest hlat hpost hnd hex
  intro k
  by_cases hk : k ∈ bs.postOrder
  · obtain ⟨_, hr⟩ := hform k hk
    rw [resume_rule] at hr
    cases hck : complete_keys_of records k with
    | true =>
        rw [if_pos hck] at hr
        have hdict : completions_dict records k = some 1 := of_decide_eq_true hck
        by_cases hstr : strOfKey k = strOfKey latest
        · rw [if_pos hstr] at hr
          rw [hr]
          constructor
          · intro _
            exact ⟨hk, Or.inl ⟨hdict, hstr⟩⟩
          · intro _
            rfl
        · rw [if_neg hstr] at hr
          rw [hr]
          constructor
          · intro hcontra
            exact absurd hcontra Bool.false_ne_true
          · rintro ⟨-, ⟨-, hstr2⟩ | ⟨hnd2, -, -⟩⟩
            · exact absurd hstr2 hstr
            · exact absurd hdict hnd2
    | false =>
        rw [if_neg (Bool.eq_false_iff.mp hck)] at hr
        have hdict : ¬completions_dict records k = some 1 := of_decide_eq_false hck
        by_cases hmode : bs.completionMode k = some CompletionMode.aggregator
        · rw [if_pos hmode] at hr
          rw [hr, child_resume]
          simp only [List.any_eq_true]
          constructor
          · rintro ⟨c, hc, hrc⟩
            exact ⟨hk, Or.inr ⟨hdict, hmode, c, hc, hrc⟩⟩
          · rintro ⟨-, ⟨hd2, -⟩ | ⟨-, -, c, hc, hrc⟩⟩
            · exact absurd hd2 hdict
            · exact ⟨c, hc, hrc⟩
        · rw [if_neg hmode] at hr
          rw [hr]
          constructor
          · intro hcontra
            exact absurd hcontra Bool.false_ne_true
          · rintro ⟨-, ⟨hd2, -⟩ | ⟨-, hm2, -⟩⟩
            · exact absurd hd2 hdict
            · exact absurd hm2 hmode
  · rw [(hframe k hk).2]
    constructor
    · intro hcontra
      exact absurd hcontra Bool.false_ne_true
    · rintro ⟨hkmem, -⟩
      exact absurd hkmem hk

/-- C4 witness: the amended characterization applied to an aggregator
root over a single recorded leaf, instantiated at the root. -/
theorem C4_witness :
    latest_complete_key recsW3 = some 1 ∧
    ((transform bsW7 recsW3 [] initState).fst.resume 0 = true ↔
      ((0 : Key) ∈ bsW7.postOrder ∧
        ((completions_dict recsW3 0 = some 1 ∧ strOfKey 0 = strOfKey 1) ∨
         (¬completions_dict recsW3 0 = some 1 ∧
          bsW7.completionMode 0 = some CompletionMode.aggregator ∧
          ∃ c ∈ bsW7.children 0,
            (transform bsW7 recsW3 [] initState).fst.resume c = true)))) :=
  ⟨by decide,
   C4_resume_characterization bsW7 recsW3 1 (by decide) (by decide) (by decide) 0⟩

/-- C9: the transformer is a pure function of its inputs in the
embedding (no hidden state exists across calls), and — the substantive
content — re-running the transform on the already-transformed structure
reproduces the exact same state: every field of every block keeps its
value and the second call raises no error, provided the supplied
post-order is valid, duplicate-free, and no traversed block triggers
the exam-override check. -/
theorem C9_idempotent (bs : BlockStructure) (records : List CompletionRecord)
    (exam : List Key)
    (hpost : postorder_ready bs [] bs.postOrder = true)
    (hnd : bs.postOrder.Nodup)
    (hex : ∀ x ∈ bs.postOrder, exam.contains (strOfKey x) = false) :
    transform bs records exam ((transform bs records exam initState).fst) =
      ((transform bs records exam initState).fst, none) := by
  have hassign : assign_completion_values bs records bs.topoOrder
      ((transform bs records exam initState).fst) =
      (transform bs records exam initState).fst := by
    apply TState.ext_of
    · intro x
      by_cases hx : x ∈ bs.topoOrder
      · rw [assign_mem bs records bs.topoOrder _ x hx,
          transform_completion_eq bs records exam initState x hx]
      · exact (assign_frame bs records bs.topoOrder _).2.2 x hx
    · intro x
      exact congrFun (assign_frame bs records bs.topoOrder _).1 x
    · intro x
      exact congrFun (assign_frame bs records bs.topoOrder _).2.1 x
  cases hl : latest_complete_key records with
  | none =>
      rw [transform_eq_none bs records exam _ hl, hassign]
  | some latest =>
      rw [transform_eq_some bs records exam _ latest hl, hassign]
      obtain ⟨hsnd, hframe, hform⟩ := transform_spec bs records exam latest hl hpost hnd hex
      exact mark_loop_fixpoint (complete_keys_of records) latest bs exam bs.postOrder
        ((transform bs records exam initState).fst) hex (fun x hx => hform x hx)

/-- C9 witness: idempotence evaluated on the C2 witness tree and
records. -/
theorem C9_witness :
    transform bsW2 recsW2 [] ((transform bsW2 recsW2 [] initState).fst) =
      ((transform bsW2 recsW2 [] initState).fst, none) :=
  C9_idempotent bsW2 recsW2 [] (by decide) (by decide) (by decide)

/-- C10: during a transform call every write to the `complete` and
`resume_block` fields writes `true` and nothing ever clears them, so a
flag that is set when the call starts is still set when it ends — even
when the call aborts mid-pass; and a repeated `mark_complete` visit to
the same block (a DAG block reached through several parents; the block
not being its own child) leaves the two flag fields of every block
exactly as a single visit does. -/
theorem C10_flag_writes_monotone (bs : BlockStructure)
    (records : List CompletionRecord) (exam : List Key) (s : TState)
    (ck : Key → Bool) (latest k : Key) :
    (∀ x, s.complete x = true →
      (transform bs records exam s).fst.complete x = true) ∧
    (∀ x, s.resume x = true →
      (transform bs records exam s).fst.resume x = true) ∧
    (k ∉ bs.children k →
      ∀ x,
        (mark_complete ck latest k bs exam
            ((mark_complete ck latest k bs exam s).fst)).fst.complete x =
          (mark_complete ck latest k bs exam s).fst.complete x ∧
        (mark_complete ck latest k bs exam
            ((mark_complete ck latest k bs exam s).fst)).fst.resume x =
          (mark_complete ck latest k bs exam s).fst.resume x) := by
  have hflags := assign_frame bs records bs.topoOrder s
  refine ⟨?_, ?_, ?_⟩
  · intro x h
    cases hl : latest_complete_key records with
    | none =>
        rw [transform_eq_none bs records exam s hl]
        exact (congrFun hflags.1 x).trans h
    | some latest2 =>
        rw [transform_eq_some bs records exam s latest2 hl]
        exact (loop_mono (complete_keys_of records) latest2 bs exam bs.postOrder
          (assign_completion_values bs records bs.topoOrder s) x).1
          ((congrFun hflags.1 x).trans h)
  · intro x h
    cases hl : latest_complete_key records with
    | none =>
        rw [transform_eq_none bs records exam s hl]
        exact (congrFun hflags.2.1 x).trans h
    | some latest2 =>
        rw [transform_eq_some bs records exam s latest2 hl]
        exact (loop_mono (complete_keys_of records) latest2 bs exam bs.postOrder
          (assign_completion_values bs records bs.topoOrder s) x).2
          ((congrFun hflags.2.1 x).trans h)
  · intro hkc x
    by_cases hx : x = k
    · subst hx
      have hagree : ∀ c ∈ bs.children x,
          (mark_complete ck latest x bs exam s).fst.complete c = s.complete c ∧
          (mark_complete ck latest x bs exam s).fst.resume c = s.resume c := by
        intro c hc
        have hcx : c ≠ x := fun hcontra => hkc (hcontra ▸ hc)
        exact mc_other ck latest x bs exam s c hcx
      have hvote : children_vote bs
          (mark_complete ck latest x bs exam s).fst.complete x =
          children_vote bs s.complete x :=
        children_vote_agree bs x (fun c hc => (hagree c hc).1)
      have hany : child_resume bs
          (mark_complete ck latest x bs exam s).fst.resume x =
          child_resume bs s.resume x :=
        child_resume_agree bs x (fun c hc => (hagree c hc).2)
      constructor
      · rw [mc_self_complete]
        by_cases h1 : ck x = true
        · rw [if_pos h1, mc_self_complete, if_pos h1]
        · rw [if_neg h1]
          by_cases h2 : bs.completionMode x = some CompletionMode.aggregator
          · rw [if_pos h2, hvote]
            cases hv : children_vote bs s.complete x with
            | true =>
                rw [if_pos rfl, mc_self_complete, if_neg h1, if_pos h2, if_pos hv]
            | false =>
                rw [if_neg Bool.false_ne_true]
          · rw [if_neg h2]
      · rw [mc_self_resume]
        by_cases h1 : ck x = true
        · rw [if_pos h1]
          by_cases hstr : strOfKey x = strOfKey latest
          · rw [if_pos hstr, mc_self_resume, if_pos h1, if_pos hstr]
          · rw [if_neg hstr]
        · rw [if_neg h1]
          by_cases h2 : bs.completionMode x = some CompletionMode.aggregator
          · rw [if_pos h2, hany]
            cases hv : child_resume bs s.resume x with
            | true =>
                rw [if_pos rfl, mc_self_resume, if_neg h1, if_pos h2, if_pos hv]
            | false =>
                rw [if_neg Bool.false_ne_true]
          · rw [if_neg h2]
    · exact mc_other ck latest k bs exam _ x hx

def sW10 : TState :=
  { completion := fun _ => none
    complete := fun x => decide (x = 5)
    resume := fun x => decide (x = 6) }

def bsW10 : BlockStructure :=
  { topoOrder := [7]
    postOrder := [7]
    children := fun _ => []
    completionMode := fun _ => none }

/-- C10 witness: a pre-set flag survives a transform call, and a second
`mark_complete` visit to block 7 changes nothing. -/
theorem C10_witness :
    sW10.complete 5 = true ∧
    (transform bsW10 [] [] sW10).fst.complete 5 = true ∧
    sW10.resume 6 = true ∧
    (transform bsW10 [] [] sW10).fst.resume 6 = true ∧
    (7 : Key) ∉ bsW10.children 7 ∧
    ((mark_complete (fun _ => true) 7 7 bsW10 []
        ((mark_complete (fun _ => true) 7 7 bsW10 [] sW10).fst)).fst.complete 7 =
      (mark_complete (fun _ => true) 7 7 bsW10 [] sW10).fst.complete 7) :=
  ⟨by decide,
   (C10_flag_writes_monotone bsW10 [] [] sW10 (fun _ => true) 7 7).1 5 (by decide),
   by decide,
   (C10_flag_writes_monotone bsW10 [] [] sW10 (fun _ => true) 7 7).2.1 6 (by decide),
   by decide,
   ((C10_flag_writes_monotone bsW10 [] [] sW10 (fun _ => true) 7 7).2.2 (by decide) 7).1⟩
